import Mathlib

/-!
Shallow embedding of `src/mtftable.c`, a move-to-front table built on top of
a singly linked list with a head sentinel (the `dlist` collaborator).

The list cells live in an explicitly modelled heap (an association list from
natural-number addresses to cells), so the direct pointer surgery performed
by `table_lookup` is translated assignment by assignment, in source order.
Keys and values are opaque pointers in the C code; a `VALUE` may be the null
pointer, which is modelled as `Option V` with `none` standing for NULL.
Destructor callbacks are modelled as registered-or-not flags together with
invocation logs returned by `table_remove` and `table_free`.
-/

/-- Entry payload of the table, the C struct `TableElement` of
`src/mtftable.c` lines 19-22: a key pointer and a value pointer
(`none` models a NULL value pointer). -/
structure TableElement (K V : Type) where
  key : K
  value : Option V
deriving DecidableEq

/-- Modelled from the spec: the ordered-sequence collaborator `dlist.c` is
not under `src/`; its cell type is reconstructed from section 2 of the spec
and from the field accesses in `table_lookup`.  A cell of the singly linked
list holds an optional payload (the head sentinel has none) and the address
of the following cell (`none` models a NULL next pointer). -/
structure Cell (K V : Type) where
  item : Option (TableElement K V)
  next : Option Nat
deriving DecidableEq

/-- Reads the cell stored at address `a` of the heap. -/
def heapGet {K V : Type} (h : List (Nat × Cell K V)) (a : Nat) : Option (Cell K V) :=
  match h with
  | [] => none
  | (b, c) :: rest => if a = b then some c else heapGet rest a

/-- Stores cell `c` at address `a` of the heap. -/
def heapSet {K V : Type} (h : List (Nat × Cell K V)) (a : Nat) (c : Cell K V) :
    List (Nat × Cell K V) :=
  (a, c) :: h

/-- Frees the cell at address `a`: subsequent reads of `a` fail. -/
def heapDel {K V : Type} (h : List (Nat × Cell K V)) (a : Nat) : List (Nat × Cell K V) :=
  match h with
  | [] => []
  | (b, c) :: rest => if b = a then heapDel rest a else (b, c) :: heapDel rest a

/-- Reads the `next` pointer of the cell at address `a` (the C expression
`a->next`). -/
def getNextPtr {K V : Type} (h : List (Nat × Cell K V)) (a : Nat) : Option Nat :=
  match heapGet h a with
  | some c => c.next
  | none => none

/-- Modelled from the spec: the `dlist` object, a heap of cells together
with the address of the head sentinel and an allocation counter for fresh
cell addresses. -/
structure DList (K V : Type) where
  heap : List (Nat × Cell K V)
  head : Nat
  fresh : Nat

/-- Writes the `next` pointer of the cell at address `a` (the C assignment
`a->next = nx`).  Writing through an invalid address is a crash in C; the
model leaves the list unchanged there, and that branch is unreachable on
well-formed states. -/
def setNext {K V : Type} (l : DList K V) (a : Nat) (nx : Option Nat) : DList K V :=
  match heapGet l.heap a with
  | some c => { l with heap := heapSet l.heap a { c with next := nx } }
  | none => l

/-- Modelled from the spec: `dlist_empty` creates a list holding only the
head sentinel, whose `next` pointer is NULL. -/
def dlist_empty {K V : Type} : DList K V :=
  { heap := [(0, { item := none, next := none })], head := 0, fresh := 1 }

/-- Modelled from the spec: `dlist_first` returns the position before the
first element, which is the head sentinel itself (physical/logical
positioning: the element at a position lives in the cell after it). -/
def dlist_first {K V : Type} (l : DList K V) : Nat := l.head

/-- Modelled from the spec: `dlist_isEmpty` holds when the head sentinel's
`next` pointer is NULL. -/
def dlist_isEmpty {K V : Type} (l : DList K V) : Bool :=
  (getNextPtr l.heap l.head).isNone

/-- Modelled from the spec: `dlist_insert l p e` inserts a new cell holding
`e` directly after the physical cell `p`, making it the logical element at
position `p` (insert-before-position). -/
def dlist_insert {K V : Type} (l : DList K V) (p : Nat) (e : TableElement K V) : DList K V :=
  match heapGet l.heap p with
  | none => l
  | some pc =>
    { l with
      heap := heapSet (heapSet l.heap l.fresh { item := some e, next := pc.next })
        p { pc with next := some l.fresh },
      fresh := l.fresh + 1 }

/-- Modelled from the spec: `dlist_remove l p` unlinks and frees the cell
after `p` (the element at position `p`) and returns position `p` itself as
the next valid position. -/
def dlist_remove {K V : Type} (l : DList K V) (p : Nat) : DList K V :=
  match heapGet l.heap p with
  | none => l
  | some pc =>
    match pc.next with
    | none => l
    | some q =>
      { l with heap := heapSet (heapDel l.heap q) p { pc with next := getNextPtr l.heap q } }

/-- The C struct `MyTable` of `src/mtftable.c` lines 11-16: the backing
dlist, the comparator, and the two optional destructor callbacks, modelled
as registered-or-not flags. -/
structure MyTable (K V : Type) where
  values : DList K V
  cf : K → K → Int
  keyFree : Bool
  valueFree : Bool

/-- `table_create` (`src/mtftable.c` lines 31-43): `calloc` zero-initialises
the struct, so both destructor pointers start out NULL; the backing dlist is
created empty. -/
def table_create {K V : Type} (cf : K → K → Int) : MyTable K V :=
  { values := dlist_empty, cf := cf, keyFree := false, valueFree := false }

/-- `table_setKeyMemHandler` (`src/mtftable.c` lines 48-52): registers the
key destructor callback. -/
def table_setKeyMemHandler {K V : Type} (t : MyTable K V) : MyTable K V :=
  { t with keyFree := true }

/-- `table_setValueMemHandler` (`src/mtftable.c` lines 56-59): registers the
value destructor callback. -/
def table_setValueMemHandler {K V : Type} (t : MyTable K V) : MyTable K V :=
  { t with valueFree := true }

/-- `table_isEmpty` (`src/mtftable.c` lines 64-67): delegates to
`dlist_isEmpty`. -/
def table_isEmpty {K V : Type} (t : MyTable K V) : Bool :=
  dlist_isEmpty t.values

/-- `table_insert` (`src/mtftable.c` lines 77-88): builds a new
`TableElement` and inserts it at the position before the first element. -/
def table_insert {K V : Type} (t : MyTable K V) (key : K) (value : Option V) : MyTable K V :=
  { t with values := dlist_insert t.values (dlist_first t.values) { key := key, value := value } }

/-- Modelled from the spec: `table_insert` calls `malloc` for the new
`TableElement` and immediately writes through the result without any NULL
check (`src/mtftable.c` lines 81-83), and the function returns `void`.
The extra `allocOk` argument is an allocation oracle; `allocOk = false`
models a failing `malloc`, in which case the C code dereferences a NULL
pointer, which is undefined behaviour: no table state and no error result
reach the caller, modelled as `none`. -/
def table_insert_alloc {K V : Type} (t : MyTable K V) (key : K) (value : Option V)
    (allocOk : Bool) : Option (MyTable K V) :=
  if allocOk then some (table_insert t key value) else none

/-- Scan-and-relink loop of `table_lookup` (`src/mtftable.c` lines 104-131),
with an explicit fuel argument bounding the traversal (the C loop walks the
finitely many cells of a well-formed list).  The nested matches translate
`dlist_isEnd` (a NULL `next` pointer at the current position) and
`dlist_inspect` (the payload of the cell after the current position); the
`none` fall-through branches are C crashes, unreachable on well-formed
states.  On a comparator match the three pointer assignments of lines
114-126 are performed in source order:
`temp1 = p->next->next`, `temp2 = head->next`, then
`head->next = p->next`, `p->next->next = temp2`, `p->next = temp1`. -/
def lookupLoop {K V : Type} (cf : K → K → Int) (key : K) :
    Nat → DList K V → Nat → Option V × DList K V
  | 0, l, _ => (none, l)
  | fuel + 1, l, p =>
    match heapGet l.heap p with
    | none => (none, l)
    | some pc =>
      match pc.next with
      | none => (none, l)
      | some m =>
        match heapGet l.heap m with
        | none => (none, l)
        | some mc =>
          match mc.item with
          | none => (none, l)
          | some i =>
            if cf i.key key = 0 then
              let temp1 : Option Nat := mc.next
              let temp2 : Option Nat := getNextPtr l.heap l.head
              let l1 := setNext l l.head (some m)
              let l2 :=
                match getNextPtr l1.heap p with
                | some m2 => setNext l1 m2 temp2
                | none => l1
              let l3 := setNext l2 p temp1
              (i.value, l3)
            else
              lookupLoop cf key fuel l m

/-- `table_lookup` (`src/mtftable.c` lines 101-133): linear scan from the
front; on a comparator match the matched cell is relinked towards the front
and the value pointer is returned; reaching the end returns NULL. -/
def table_lookup {K V : Type} (t : MyTable K V) (key : K) : Option V × MyTable K V :=
  let r := lookupLoop t.cf key (t.values.heap.length + 1) t.values (dlist_first t.values)
  (r.1, { t with values := r.2 })

/-- Scan-and-remove loop of `table_remove` (`src/mtftable.c` lines 143-158),
with fuel as in `lookupLoop`.  On a comparator match the registered
destructors are invoked on the removed key and value (recorded in the two
returned logs, in removal order) and the element is removed with
`dlist_remove`, which returns the same position; otherwise the scan
advances. -/
def removeLoop {K V : Type} (cf : K → K → Int) (kf vf : Bool) (key : K) :
    Nat → DList K V → Nat → DList K V × List K × List (Option V)
  | 0, l, _ => (l, [], [])
  | fuel + 1, l, p =>
    match heapGet l.heap p with
    | none => (l, [], [])
    | some pc =>
      match pc.next with
      | none => (l, [], [])
      | some m =>
        match heapGet l.heap m with
        | none => (l, [], [])
        | some mc =>
          match mc.item with
          | none => (l, [], [])
          | some i =>
            if cf i.key key = 0 then
              let r := removeLoop cf kf vf key fuel (dlist_remove l p) p
              (r.1, (if kf then i.key :: r.2.1 else r.2.1),
                (if vf then i.value :: r.2.2 else r.2.2))
            else
              removeLoop cf kf vf key fuel l m

/-- `table_remove` (`src/mtftable.c` lines 140-160): removes every element
whose key compares equal to `key`, invoking the registered destructors on
each removed key and value.  The result is the mutated table together with
the key-destructor and value-destructor invocation logs. -/
def table_remove {K V : Type} (t : MyTable K V) (key : K) :
    MyTable K V × List K × List (Option V) :=
  let r := removeLoop t.cf t.keyFree t.valueFree key (t.values.heap.length + 1)
    t.values (dlist_first t.values)
  ({ t with values := r.1 }, r.2.1, r.2.2)

/-- Destruction loop of `table_free` (`src/mtftable.c` lines 168-180): every
remaining element is removed, invoking the registered destructors on its key
and value.  Only the destructor invocation logs are observable once the
table is gone, so the loop returns just those. -/
def freeLoop {K V : Type} (kf vf : Bool) :
    Nat → DList K V → Nat → List K × List (Option V)
  | 0, _, _ => ([], [])
  | fuel + 1, l, p =>
    match heapGet l.heap p with
    | none => ([], [])
    | some pc =>
      match pc.next with
      | none => ([], [])
      | some m =>
        match heapGet l.heap m with
        | none => ([], [])
        | some mc =>
          match mc.item with
          | none => ([], [])
          | some i =>
            let r := freeLoop kf vf fuel (dlist_remove l p) p
            ((if kf then i.key :: r.1 else r.1), (if vf then i.value :: r.2 else r.2))

/-- `table_free` (`src/mtftable.c` lines 165-185): destroys every remaining
element and then the list and the table; the observable outcome is the pair
of destructor invocation logs. -/
def table_free {K V : Type} (t : MyTable K V) : List K × List (Option V) :=
  freeLoop t.keyFree t.valueFree (t.values.heap.length + 1) t.values (dlist_first t.values)

/-- Observer: the elements reachable from the head sentinel, front to back,
cut off by fuel so that it is total even on corrupted (cyclic) states. -/
def entriesFrom {K V : Type} (h : List (Nat × Cell K V)) :
    Option Nat → Nat → List (TableElement K V)
  | _, 0 => []
  | none, _ => []
  | some a, fuel + 1 =>
    match heapGet h a with
    | none => []
    | some c =>
      match c.item with
      | none => []
      | some e => e :: entriesFrom h c.next fuel

/-- Observer: the front-to-back contents of a table's backing sequence. -/
def table_entries {K V : Type} (t : MyTable K V) : List (TableElement K V) :=
  entriesFrom t.values.heap (getNextPtr t.values.heap t.values.head) t.values.heap.length

/-- Numeric comparator used in the spec's scenarios. -/
def intCmp (a b : Int) : Int := a - b

/-- Empty table over integer keys and string values. -/
def t0 : MyTable Int String := table_create intCmp

/-- Table holding the single entry (1, "a"). -/
def t1 : MyTable Int String := table_insert t0 1 (some "a")

/-- Scenario A table: (1,"a"), (2,"b"), (3,"c") inserted in that order, so
the front-to-back key order is 3, 2, 1. -/
def tA : MyTable Int String := table_insert (table_insert t1 2 (some "b")) 3 (some "c")

/-- Two-entry table with front-to-back key order 2, 1. -/
def tC : MyTable Int String := table_insert t1 2 (some "b")

/-- Table holding one entry whose stored value pointer is NULL. -/
def tN : MyTable Int String := table_insert t0 1 none

/-- Two-entry table with front-to-back key order 1, 2: the entry with key 1
sits at the front. -/
def tF : MyTable Int String := table_insert (table_insert t0 2 (some "b")) 1 (some "a")

/-- Well-formed chain of list cells: starting from the pointer `x`, the
addresses `as` are traversed in order, each holding a payload cell whose
items spell out `es`, and the chain ends in a NULL pointer. -/
inductive ChainFrom {K V : Type} (h : List (Nat × Cell K V)) :
    Option Nat → List Nat → List (TableElement K V) → Prop where
  | nil : ChainFrom h none [] []
  | cons (a : Nat) (c : Cell K V) (e : TableElement K V) (as : List Nat)
      (es : List (TableElement K V)) (hget : heapGet h a = some c)
      (hitem : c.item = some e) (rest : ChainFrom h c.next as es) :
      ChainFrom h (some a) (a :: as) (e :: es)

/-- Well-formed table state: the head sentinel is a live cell without a
payload, the elements `es` sit in a NULL-terminated chain of pairwise
distinct live addresses `as`, none of which collides with the sentinel or
with an address that is still to be allocated. -/
def TableWF {K V : Type} (t : MyTable K V) (as : List Nat)
    (es : List (TableElement K V)) : Prop :=
  ∃ hc : Cell K V,
    heapGet t.values.heap t.values.head = some hc ∧ hc.item = none ∧
    ChainFrom t.values.heap hc.next as es ∧
    (t.values.head :: as).Nodup ∧
    ∀ a ∈ t.values.head :: as, a < t.values.fresh

theorem heapGet_set_self {K V : Type} (h : List (Nat × Cell K V)) (a : Nat) (c : Cell K V) :
    heapGet (heapSet h a c) a = some c := by
  simp [heapGet, heapSet]

theorem heapGet_set_ne {K V : Type} (h : List (Nat × Cell K V)) (a b : Nat) (c : Cell K V)
    (hne : b ≠ a) : heapGet (heapSet h a c) b = heapGet h b := by
  simp [heapGet, heapSet, hne]

theorem heapGet_del_self {K V : Type} (h : List (Nat × Cell K V)) (a : Nat) :
    heapGet (heapDel h a) a = none := by
  induction h with
  | nil => rfl
  | cons x rest ih =>
    obtain ⟨b, c⟩ := x
    by_cases hb : b = a
    · simp [heapDel, hb, ih]
    · simp [heapDel, hb, heapGet, Ne.symm hb, ih]

theorem heapGet_del_ne {K V : Type} (h : List (Nat × Cell K V)) (a b : Nat)
    (hne : b ≠ a) : heapGet (heapDel h a) b = heapGet h b := by
  induction h with
  | nil => rfl
  | cons x rest ih =>
    obtain ⟨x1, c⟩ := x
    by_cases hx : x1 = a
    · subst hx
      simp [heapDel, heapGet, hne, ih]
    · by_cases hbx : b = x1 <;> simp [heapDel, hx, heapGet, hbx, ih]

theorem heapGet_mem_keys {K V : Type} {h : List (Nat × Cell K V)} {a : Nat} {c : Cell K V}
    (hg : heapGet h a = some c) : a ∈ h.map Prod.fst := by
  induction h with
  | nil => simp [heapGet] at hg
  | cons x rest ih =>
    obtain ⟨b, c'⟩ := x
    by_cases hb : a = b
    · simp [hb]
    · simp only [heapGet, hb, if_false] at hg
      simp [ih hg]

theorem chainFrom_inv_nil {K V : Type} {h : List (Nat × Cell K V)} {x : Option Nat}
    {as : List Nat} (hc : ChainFrom h x as []) : x = none ∧ as = [] := by
  cases hc
  exact ⟨rfl, rfl⟩

theorem chainFrom_inv_cons {K V : Type} {h : List (Nat × Cell K V)} {x : Option Nat}
    {as : List Nat} {e : TableElement K V} {es : List (TableElement K V)}
    (hc : ChainFrom h x as (e :: es)) :
    ∃ a c as', x = some a ∧ as = a :: as' ∧ heapGet h a = some c ∧
      c.item = some e ∧ ChainFrom h c.next as' es := by
  cases hc with
  | cons a c e as' es' hget hitem rest =>
    exact ⟨a, c, as', rfl, rfl, hget, hitem, rest⟩

theorem chainFrom_congr {K V : Type} {h h' : List (Nat × Cell K V)} :
    ∀ {x : Option Nat} {as : List Nat} {es : List (TableElement K V)},
      ChainFrom h x as es → (∀ a ∈ as, heapGet h' a = heapGet h a) →
      ChainFrom h' x as es := by
  intro x as es hc
  induction hc with
  | nil => intro _; exact ChainFrom.nil
  | cons a c e as' es' hget hitem rest ih =>
    intro hsame
    refine ChainFrom.cons a c e as' es' ?_ hitem (ih ?_)
    · rw [hsame a (List.mem_cons_self a as')]
      exact hget
    · intro b hb
      exact hsame b (List.mem_cons_of_mem a hb)

theorem chainFrom_length {K V : Type} {h : List (Nat × Cell K V)} {x : Option Nat}
    {as : List Nat} {es : List (TableElement K V)} (hc : ChainFrom h x as es) :
    as.length = es.length := by
  induction hc with
  | nil => rfl
  | cons a c e as' es' hget hitem rest ih => simp [ih]

theorem chainFrom_mem_live {K V : Type} {h : List (Nat × Cell K V)} {x : Option Nat}
    {as : List Nat} {es : List (TableElement K V)} (hc : ChainFrom h x as es) :
    ∀ a ∈ as, ∃ c, heapGet h a = some c := by
  induction hc with
  | nil => intro a ha; simp at ha
  | cons a c e as' es' hget hitem rest ih =>
    intro b hb
    rcases List.mem_cons.mp hb with hb | hb
    · exact ⟨c, hb ▸ hget⟩
    · exact ih b hb

theorem tableWF_length_le {K V : Type} {t : MyTable K V} {as : List Nat}
    {es : List (TableElement K V)} (hwf : TableWF t as es) :
    es.length + 1 ≤ t.values.heap.length := by
  obtain ⟨hc, hget, _, hchain, hnodup, _⟩ := hwf
  have hsub : (t.values.head :: as) ⊆ t.values.heap.map Prod.fst := by
    intro a ha
    rcases List.mem_cons.mp ha with ha | ha
    · exact ha ▸ heapGet_mem_keys hget
    · obtain ⟨c, hg⟩ := chainFrom_mem_live hchain a ha
      exact heapGet_mem_keys hg
  have hle := (hnodup.subperm hsub).length_le
  simp only [List.length_cons, List.length_map] at hle
  have hlen := chainFrom_length hchain
  omega

theorem lookupLoop_not_found {K V : Type} (cf : K → K → Int) (key : K) :
    ∀ (es : List (TableElement K V)) (l : DList K V) (as : List Nat) (p : Nat)
      (pc : Cell K V) (fuel : Nat),
      heapGet l.heap p = some pc → ChainFrom l.heap pc.next as es →
      (∀ e ∈ es, cf e.key key ≠ 0) → es.length + 1 ≤ fuel →
      lookupLoop cf key fuel l p = (none, l) := by
  intro es
  induction es with
  | nil =>
    intro l as p pc fuel hget hchain _ hfuel
    obtain ⟨hnext, _⟩ := chainFrom_inv_nil hchain
    match fuel, hfuel with
    | fuel + 1, _ => simp [lookupLoop, hget, hnext]
  | cons e es ih =>
    intro l as p pc fuel hget hchain hmiss hfuel
    obtain ⟨a, c, as', hnext, rfl, hga, hitem, hrest⟩ := chainFrom_inv_cons hchain
    match fuel, hfuel with
    | fuel + 1, hfuel =>
      have hne : ¬ cf e.key key = 0 := hmiss e (List.mem_cons_self e es)
      have hrec := ih l as' a c fuel hga hrest
        (fun x hx => hmiss x (List.mem_cons_of_mem e hx)) (by simpa using hfuel)
      simp [lookupLoop, hget, hnext, hga, hitem, hne, hrec]

theorem lookupLoop_fst_found {K V : Type} (cf : K → K → Int) (key : K) :
    ∀ (pre : List (TableElement K V)) (e : TableElement K V)
      (suf : List (TableElement K V)) (l : DList K V) (as : List Nat) (p : Nat)
      (pc : Cell K V) (fuel : Nat),
      heapGet l.heap p = some pc → ChainFrom l.heap pc.next as (pre ++ e :: suf) →
      (∀ x ∈ pre, cf x.key key ≠ 0) → cf e.key key = 0 → pre.length + 1 ≤ fuel →
      (lookupLoop cf key fuel l p).1 = e.value := by
  intro pre
  induction pre with
  | nil =>
    intro e suf l as p pc fuel hget hchain _ hm hfuel
    obtain ⟨a, c, as', hnext, rfl, hga, hitem, _⟩ := chainFrom_inv_cons hchain
    match fuel, hfuel with
    | fuel + 1, _ => simp [lookupLoop, hget, hnext, hga, hitem, hm]
  | cons x pre ih =>
    intro e suf l as p pc fuel hget hchain hpre hm hfuel
    obtain ⟨a, c, as', hnext, rfl, hga, hitem, hrest⟩ := chainFrom_inv_cons hchain
    match fuel, hfuel with
    | fuel + 1, hfuel =>
      have hne : ¬ cf x.key key = 0 := hpre x (List.mem_cons_self x pre)
      have hrec := ih e suf l as' a c fuel hga hrest
        (fun y hy => hpre y (List.mem_cons_of_mem x hy)) hm (by simpa using hfuel)
      simp [lookupLoop, hget, hnext, hga, hitem, hne, hrec]

theorem dlist_insert_wf {K V : Type} {t : MyTable K V} {as : List Nat}
    {es : List (TableElement K V)} (hwf : TableWF t as es) (k : K) (v : Option V) :
    TableWF (table_insert t k v) (t.values.fresh :: as)
      ({ key := k, value := v } :: es) := by
  obtain ⟨hc, hget, hitem, hchain, hnodup, hlt⟩ := hwf
  have hheadlt : t.values.head < t.values.fresh :=
    hlt t.values.head (List.mem_cons_self _ _)
  have haslt : ∀ a ∈ as, a < t.values.fresh :=
    fun a ha => hlt a (List.mem_cons_of_mem _ ha)
  refine ⟨{ hc with next := some t.values.fresh }, ?_, hitem, ?_, ?_, ?_⟩
  · simp only [table_insert, dlist_insert, dlist_first, hget]
    rw [heapGet_set_self]
  · simp only [table_insert, dlist_insert, dlist_first, hget]
    refine ChainFrom.cons t.values.fresh
      (Cell.mk (some (TableElement.mk k v)) hc.next) _ as es ?_ rfl ?_
    · rw [heapGet_set_ne _ _ _ _ (Nat.ne_of_gt hheadlt), heapGet_set_self]
    · refine chainFrom_congr hchain ?_
      intro a ha
      have halt := haslt a ha
      have hahead : a ≠ t.values.head := by
        intro hcontra
        have := List.Nodup.not_mem hnodup
        exact this (hcontra ▸ ha)
      rw [heapGet_set_ne _ _ _ _ hahead, heapGet_set_ne _ _ _ _ (Nat.ne_of_lt halt)]
  · simp only [table_insert, dlist_insert, dlist_first, hget]
    have hfna : t.values.fresh ∉ t.values.head :: as := by
      intro hmem
      exact absurd (hlt _ hmem) (lt_irrefl _)
    simp only [List.nodup_cons, List.mem_cons] at hnodup hfna ⊢
    push_neg at hfna ⊢
    exact ⟨⟨Ne.symm hfna.1, hnodup.1⟩, hfna.2, hnodup.2⟩
  · simp only [table_insert, dlist_insert, dlist_first, hget]
    intro a ha
    simp only [List.mem_cons] at ha
    rcases ha with rfl | rfl | ha
    · exact Nat.lt_succ_of_lt hheadlt
    · exact Nat.lt_succ_self _
    · exact Nat.lt_succ_of_lt (haslt a ha)

theorem removeLoop_spec {K V : Type} (cf : K → K → Int) (kf vf : Bool) (key : K) :
    ∀ (es : List (TableElement K V)) (l : DList K V) (as : List Nat) (p : Nat)
      (pc : Cell K V) (fuel : Nat),
      heapGet l.heap p = some pc → ChainFrom l.heap pc.next as es →
      (p :: as).Nodup → es.length + 1 ≤ fuel →
      ∃ (l' : DList K V) (as' : List Nat) (pc' : Cell K V),
        removeLoop cf kf vf key fuel l p =
          (l', (if kf then (es.filter fun e => decide (cf e.key key = 0)).map
                  (fun e => e.key) else []),
            (if vf then (es.filter fun e => decide (cf e.key key = 0)).map
                  (fun e => e.value) else [])) ∧
        l'.head = l.head ∧ l'.fresh = l.fresh ∧
        heapGet l'.heap p = some pc' ∧ pc'.item = pc.item ∧
        ChainFrom l'.heap pc'.next as' (es.filter fun e => !decide (cf e.key key = 0)) ∧
        (∀ a ∈ as', a ∈ as) ∧ (p :: as').Nodup ∧
        (∀ b, b ≠ p → b ∉ as → heapGet l'.heap b = heapGet l.heap b) := by
  intro es
  induction es with
  | nil =>
    intro l as p pc fuel hget hchain hnodup hfuel
    obtain ⟨hnext, rfl⟩ := chainFrom_inv_nil hchain
    match fuel, hfuel with
    | fuel + 1, _ =>
      refine ⟨l, [], pc, ?_, rfl, rfl, hget, rfl, ?_, ?_, ?_, ?_⟩
      · simp [removeLoop, hget, hnext]
      · simp only [List.filter_nil]
        rw [hnext]
        exact ChainFrom.nil
      · simp
      · simp
      · intro b _ _
        rfl
  | cons e es ih =>
    intro l as p pc fuel hget hchain hnodup hfuel
    obtain ⟨m, mc, as₂, hnext, rfl, hgm, hitem, hrest⟩ := chainFrom_inv_cons hchain
    simp only [List.nodup_cons, List.mem_cons, not_or] at hnodup
    obtain ⟨⟨hpm, hpas⟩, hmas, hnodup₂⟩ := hnodup
    match fuel, hfuel with
    | fuel + 1, hfuel =>
      have hfuel₂ : es.length + 1 ≤ fuel := by
        simp only [List.length_cons] at hfuel
        omega
      by_cases hm : cf e.key key = 0
      · -- the element at position p matches: it is removed and the scan stays at p
        have hremeq : dlist_remove l p =
            { l with heap := heapSet (heapDel l.heap m) p { pc with next := mc.next } } := by
          simp [dlist_remove, hget, hnext, getNextPtr, hgm]
        have hget₂ : heapGet (heapSet (heapDel l.heap m) p { pc with next := mc.next }) p
            = some { pc with next := mc.next } := heapGet_set_self _ _ _
        have hchain₂ : ChainFrom (heapSet (heapDel l.heap m) p { pc with next := mc.next })
            mc.next as₂ es := by
          refine chainFrom_congr hrest ?_
          intro a ha
          have hap : a ≠ p := fun hcontra => hpas (hcontra ▸ ha)
          have ham : a ≠ m := fun hcontra => hmas (hcontra ▸ ha)
          rw [heapGet_set_ne _ _ _ _ hap, heapGet_del_ne _ _ _ ham]
        have hnodup₂' : (p :: as₂).Nodup := by
          simp only [List.nodup_cons]
          exact ⟨hpas, hnodup₂⟩
        obtain ⟨l', as', pc', heq, hh, hf, hget', hitem', hchain', hmem', hnodup', hframe'⟩ :=
          ih { l with heap := heapSet (heapDel l.heap m) p { pc with next := mc.next } }
            as₂ p { pc with next := mc.next } fuel hget₂ hchain₂ hnodup₂' hfuel₂
        refine ⟨l', as', pc', ?_, hh, hf, hget', hitem', ?_, ?_, hnodup', ?_⟩
        · simp only [removeLoop, hget, hnext, hgm, hitem, if_pos hm, hremeq, heq]
          cases kf <;> cases vf <;> simp [List.filter_cons, hm]
        · simpa [List.filter_cons, hm] using hchain'
        · intro a ha
          exact List.mem_cons_of_mem m (hmem' a ha)
        · intro b hbp hbas
          simp only [List.mem_cons, not_or] at hbas
          rw [hframe' b hbp hbas.2]
          simp only [heapSet, heapGet, heapDel]
          rw [if_neg hbp, heapGet_del_ne _ _ _ hbas.1]
      · -- no match at position p: the scan advances to position m
        have hnodupm : (m :: as₂).Nodup := by
          simp only [List.nodup_cons]
          exact ⟨hmas, hnodup₂⟩
        obtain ⟨l', as', mc', heq, hh, hf, hgetm', hitemm', hchain', hmem', hnodupm', hframe'⟩ :=
          ih l as₂ m mc fuel hgm hrest hnodupm hfuel₂
        refine ⟨l', m :: as', pc, ?_, hh, hf, ?_, rfl, ?_, ?_, ?_, ?_⟩
        · simp only [removeLoop, hget, hnext, hgm, hitem, if_neg hm, heq]
          cases kf <;> cases vf <;> simp [List.filter_cons, hm]
        · rw [hframe' p hpm hpas]
          exact hget
        · rw [hnext]
          have hfilter : (e :: es).filter (fun x => !decide (cf x.key key = 0))
              = e :: es.filter (fun x => !decide (cf x.key key = 0)) := by
            simp [List.filter_cons, hm]
          rw [hfilter]
          refine ChainFrom.cons m mc' e as' _ hgetm' ?_ hchain'
          rw [hitemm']
          exact hitem
        · intro a ha
          rcases List.mem_cons.mp ha with rfl | ha
          · exact List.mem_cons_self _ _
          · exact List.mem_cons_of_mem m (hmem' a ha)
        · simp only [List.nodup_cons, List.mem_cons, not_or]
          exact ⟨⟨hpm, fun hcontra => hpas (hmem' p hcontra)⟩,
            (List.nodup_cons.mp hnodupm').1, (List.nodup_cons.mp hnodupm').2⟩
        · intro b hbp hbas
          simp only [List.mem_cons, not_or] at hbas
          exact hframe' b hbas.1 hbas.2

theorem freeLoop_spec {K V : Type} (kf vf : Bool) :
    ∀ (es : List (TableElement K V)) (l : DList K V) (as : List Nat) (p : Nat)
      (pc : Cell K V) (fuel : Nat),
      heapGet l.heap p = some pc → ChainFrom l.heap pc.next as es →
      (p :: as).Nodup → es.length + 1 ≤ fuel →
      freeLoop kf vf fuel l p =
        ((if kf then es.map (fun e => e.key) else []),
          (if vf then es.map (fun e => e.value) else [])) := by
  intro es
  induction es with
  | nil =>
    intro l as p pc fuel hget hchain _ hfuel
    obtain ⟨hnext, rfl⟩ := chainFrom_inv_nil hchain
    match fuel, hfuel with
    | fuel + 1, _ => simp [freeLoop, hget, hnext]
  | cons e es ih =>
    intro l as p pc fuel hget hchain hnodup hfuel
    obtain ⟨m, mc, as₂, hnext, rfl, hgm, hitem, hrest⟩ := chainFrom_inv_cons hchain
    simp only [List.nodup_cons, List.mem_cons, not_or] at hnodup
    obtain ⟨⟨hpm, hpas⟩, hmas, hnodup₂⟩ := hnodup
    match fuel, hfuel with
    | fuel + 1, hfuel =>
      have hfuel₂ : es.length + 1 ≤ fuel := by
        simp only [List.length_cons] at hfuel
        omega
      have hremeq : dlist_remove l p =
          { l with heap := heapSet (heapDel l.heap m) p { pc with next := mc.next } } := by
        simp [dlist_remove, hget, hnext, getNextPtr, hgm]
      have hget₂ : heapGet (heapSet (heapDel l.heap m) p { pc with next := mc.next }) p
          = some { pc with next := mc.next } := heapGet_set_self _ _ _
      have hchain₂ : ChainFrom (heapSet (heapDel l.heap m) p { pc with next := mc.next })
          mc.next as₂ es := by
        refine chainFrom_congr hrest ?_
        intro a ha
        have hap : a ≠ p := fun hcontra => hpas (hcontra ▸ ha)
        have ham : a ≠ m := fun hcontra => hmas (hcontra ▸ ha)
        rw [heapGet_set_ne _ _ _ _ hap, heapGet_del_ne _ _ _ ham]
      have hnodup₂' : (p :: as₂).Nodup := by
        simp only [List.nodup_cons]
        exact ⟨hpas, hnodup₂⟩
      have hrec := ih { l with heap := heapSet (heapDel l.heap m) p { pc with next := mc.next } }
        as₂ p { pc with next := mc.next } fuel hget₂ hchain₂ hnodup₂' hfuel₂
      simp only [freeLoop, hget, hnext, hgm, hitem, hremeq, hrec]
      cases kf <;> cases vf <;> simp

theorem t0_wf : TableWF t0 [] [] :=
  ⟨{ item := none, next := none }, rfl, rfl, ChainFrom.nil, by decide, by decide⟩

theorem t1_wf : TableWF t1 [1] [{ key := 1, value := some "a" }] := by
  refine ⟨{ item := none, next := some 1 }, by decide, rfl, ?_, by decide, by decide⟩
  show ChainFrom t1.values.heap (some 1) [1] [{ key := 1, value := some "a" }]
  refine ChainFrom.cons (h := t1.values.heap) 1
    { item := some { key := 1, value := some "a" }, next := none }
    { key := 1, value := some "a" } [] [] ?_ rfl ?_
  · decide
  · exact ChainFrom.nil

/-- Claim C1: the move-to-front property of `table_lookup`.  The spec's
Scenario A part does hold: on the table with front-to-back order 3,2,1,
looking up key 1 returns "a" and yields order 1,3,2.  The universal part is
violated by the code: on the failing input `tF` (front-to-back order 1,2,
so the front-most match for key 1 is already the front entry) the
unconditional relink of `src/mtftable.c` lines 114-126 makes the matched
cell point to itself and unlinks it from the list, so after the successful
lookup the matched entry is not at the front — it is gone. -/
theorem mtf_lookup_front_match_detaches :
    ((table_lookup tA 1).1 = some "a" ∧
      table_entries (table_lookup tA 1).2 =
        [{ key := 1, value := some "a" }, { key := 3, value := some "c" },
          { key := 2, value := some "b" }]) ∧
    (table_entries tF = [{ key := 1, value := some "a" }, { key := 2, value := some "b" }] ∧
      (table_lookup tF 1).1 = some "a" ∧
      table_entries (table_lookup tF 1).2 = [{ key := 2, value := some "b" }]) := by
  decide

/-- Claim C2: when the front entry matches the looked-up key, the claim says
no relink happens and the table is unchanged, with the front entry still at
the front.  The code instead always performs the relink, and with the scan
position still at the head sentinel the three assignments of
`src/mtftable.c` lines 114-126 unlink the matched front cell: on the
one-entry table `t1` the lookup of key 1 returns "a" but leaves an empty
table. -/
theorem lookup_front_match_not_framed :
    table_entries t1 = [{ key := 1, value := some "a" }] ∧
    (table_lookup t1 1).1 = some "a" ∧
    table_entries (table_lookup t1 1).2 = [] ∧
    table_isEmpty (table_lookup t1 1).2 = true := by
  decide

/-- Claim C3: `table_insert` (`src/mtftable.c` lines 77-88) returns `void`
and performs no NULL check on the `malloc` result: under allocation failure
it dereferences the NULL pointer (undefined behaviour, modelled as `none`),
so no explicit failure result reaches the caller; under allocation success
the call returns nothing the caller could inspect either. -/
theorem insert_alloc_failure_not_surfaced :
    table_insert_alloc t0 1 (some "a") false = none ∧
    ∀ (t : MyTable Int String) (k : Int) (v : Option String),
      table_insert_alloc t k v true = some (table_insert t k v) :=
  ⟨rfl, fun _ _ _ => rfl⟩

/-- Claim C4: idempotence of promotion fails on the code.  On the table
`tC` (front-to-back order 2,1, a single entry matching key 1), one lookup
of key 1 promotes the entry and yields order 1,2, but a second lookup hits
the front-match bug of `src/mtftable.c` lines 114-126 and unlinks the
promoted entry, leaving only the entry with key 2. -/
theorem lookup_promotion_not_idempotent :
    table_entries tC = [{ key := 2, value := some "b" }, { key := 1, value := some "a" }] ∧
    table_entries (table_lookup tC 1).2 =
      [{ key := 1, value := some "a" }, { key := 2, value := some "b" }] ∧
    table_entries (table_lookup (table_lookup tC 1).2 1).2 =
      [{ key := 2, value := some "b" }] := by
  decide

/-- Claim C5: `table_remove` removes every entry whose key compares equal to
the given key, invokes the registered key and value destructors exactly once
on each removed entry (in scan order), leaves the relative order of all
non-matching entries unchanged, and is a no-op when nothing matches (the
filter keeps all of `es`). -/
theorem remove_all_matches_spec {K V : Type} (t : MyTable K V) (as : List Nat)
    (es : List (TableElement K V)) (key : K) (hwf : TableWF t as es) :
    ∃ as', TableWF (table_remove t key).1 as'
        (es.filter fun e => !decide (t.cf e.key key = 0)) ∧
      (table_remove t key).2.1 = (if t.keyFree then
        (es.filter fun e => decide (t.cf e.key key = 0)).map (fun e => e.key) else []) ∧
      (table_remove t key).2.2 = (if t.valueFree then
        (es.filter fun e => decide (t.cf e.key key = 0)).map (fun e => e.value) else []) := by
  obtain ⟨hc, hget, hitem, hchain, hnodup, hlt⟩ := hwf
  have hfuel : es.length + 1 ≤ t.values.heap.length + 1 := by
    have := tableWF_length_le ⟨hc, hget, hitem, hchain, hnodup, hlt⟩
    omega
  obtain ⟨l', as', pc', heq, hh, hf, hget', hitem', hchain', hmem', hnodup', _⟩ :=
    removeLoop_spec t.cf t.keyFree t.valueFree key es t.values as t.values.head hc
      (t.values.heap.length + 1) hget hchain hnodup hfuel
  have hrem : table_remove t key =
      ({ t with values := l' },
        (if t.keyFree then (es.filter fun e => decide (t.cf e.key key = 0)).map
          (fun e => e.key) else []),
        (if t.valueFree then (es.filter fun e => decide (t.cf e.key key = 0)).map
          (fun e => e.value) else [])) := by
    simp only [table_remove, dlist_first, heq]
  rw [hrem]
  refine ⟨as', ⟨pc', ?_, ?_, hchain', ?_, ?_⟩, rfl, rfl⟩
  · show heapGet l'.heap l'.head = some pc'
    rw [hh]
    exact hget'
  · rw [hitem']
    exact hitem
  · show (l'.head :: as').Nodup
    rw [hh]
    exact hnodup'
  · show ∀ a ∈ l'.head :: as', a < l'.fresh
    rw [hh, hf]
    intro a ha
    rcases List.mem_cons.mp ha with rfl | ha
    · exact hlt _ (List.mem_cons_self _ _)
    · exact hlt _ (List.mem_cons_of_mem _ (hmem' a ha))

/-- Witness for C5 at the one-entry table `t1` and key 1. -/
theorem remove_all_matches_spec_witness :
    TableWF t1 [1] [{ key := 1, value := some "a" }] ∧
    ∃ as', TableWF (table_remove t1 1).1 as'
        (([{ key := 1, value := some "a" }] : List (TableElement Int String)).filter
          fun e => !decide (t1.cf e.key 1 = 0)) ∧
      (table_remove t1 1).2.1 = (if t1.keyFree then
        (([{ key := 1, value := some "a" }] : List (TableElement Int String)).filter
          fun e => decide (t1.cf e.key 1 = 0)).map (fun e => e.key) else []) ∧
      (table_remove t1 1).2.2 = (if t1.valueFree then
        (([{ key := 1, value := some "a" }] : List (TableElement Int String)).filter
          fun e => decide (t1.cf e.key 1 = 0)).map (fun e => e.value) else []) :=
  ⟨t1_wf, remove_all_matches_spec t1 [1] [{ key := 1, value := some "a" }] 1 t1_wf⟩

/-- Claim C6: `table_insert` places the new entry at the very front of the
sequence, never reads the comparator (the resulting list is the same under
any comparator), and an immediate lookup of the inserted key returns the
inserted value (which requires the comparator to be reflexive at that
key). -/
theorem insert_front_spec {K V : Type} (t : MyTable K V) (as : List Nat)
    (es : List (TableElement K V)) (k : K) (v : Option V) (hwf : TableWF t as es)
    (hrefl : t.cf k k = 0) :
    TableWF (table_insert t k v) (t.values.fresh :: as) ({ key := k, value := v } :: es) ∧
    (∀ g : K → K → Int,
      (table_insert { t with cf := g } k v).values = (table_insert t k v).values) ∧
    (table_lookup (table_insert t k v) k).1 = v := by
  refine ⟨dlist_insert_wf hwf k v, fun g => rfl, ?_⟩
  obtain ⟨hc, hget, hitem, hchain, hnodup, hlt⟩ := dlist_insert_wf hwf k v
  simp only [table_lookup, dlist_first]
  exact lookupLoop_fst_found _ k [] { key := k, value := v } es _ _ _ hc _ hget hchain
    (by simp) hrefl (by simp only [List.length_nil]; omega)

/-- Witness for C6 at the empty table and key 5. -/
theorem insert_front_spec_witness :
    TableWF t0 [] [] ∧ t0.cf 5 5 = 0 ∧
    (table_lookup (table_insert t0 5 (some "x")) 5).1 = some "x" :=
  ⟨t0_wf, by decide, (insert_front_spec t0 [] [] 5 (some "x") t0_wf (by decide)).2.2⟩

/-- Claim C7: a lookup of a key with no comparator-equal entry scans to the
end, returns NULL, and performs no mutation at all: the resulting table is
the very same state. -/
theorem lookup_miss_no_mutation {K V : Type} (t : MyTable K V) (as : List Nat)
    (es : List (TableElement K V)) (key : K) (hwf : TableWF t as es)
    (hmiss : ∀ e ∈ es, t.cf e.key key ≠ 0) :
    table_lookup t key = (none, t) := by
  obtain ⟨hc, hget, hitem, hchain, hnodup, hlt⟩ := hwf
  have hfuel : es.length + 1 ≤ t.values.heap.length + 1 := by
    have := tableWF_length_le ⟨hc, hget, hitem, hchain, hnodup, hlt⟩
    omega
  have hloop := lookupLoop_not_found t.cf key es t.values as t.values.head hc
    (t.values.heap.length + 1) hget hchain hmiss hfuel
  simp only [table_lookup, dlist_first, hloop]

/-- Witness for C7 at the one-entry table `t1` and the absent key 9. -/
theorem lookup_miss_no_mutation_witness :
    TableWF t1 [1] [{ key := 1, value := some "a" }] ∧
    table_lookup t1 9 = (none, t1) :=
  ⟨t1_wf, lookup_miss_no_mutation t1 [1] [{ key := 1, value := some "a" }] 9 t1_wf
    (by decide)⟩

/-- Counterexample to claim C8: the miss result of `table_lookup` is the
NULL pointer, and NULL is itself a storable value.  On the table `tN`,
whose single entry stores a NULL value pointer for key 1, the successful
lookup of the present key 1 returns exactly the same result as a miss on
the empty table. -/
theorem lookup_null_value_hit_equals_miss :
    table_entries tN = [{ key := 1, value := none }] ∧
    (table_lookup tN 1).1 = none ∧
    (table_lookup t0 1).1 = none := by
  decide

/-- Claim C8 as amended: the miss result NULL is distinct from every
non-NULL value, so a successful lookup of a present key whose stored value
is non-NULL never yields the miss result; only a caller-stored NULL value
is indistinguishable from a miss. -/
theorem lookup_nonnull_hit_ne_miss {K V : Type} (t : MyTable K V) (as : List Nat)
    (pre suf : List (TableElement K V)) (e : TableElement K V) (key : K) (v : V)
    (hwf : TableWF t as (pre ++ e :: suf)) (hpre : ∀ x ∈ pre, t.cf x.key key ≠ 0)
    (hm : t.cf e.key key = 0) (hv : e.value = some v) :
    (table_lookup t key).1 = some v ∧ (table_lookup t key).1 ≠ none := by
  obtain ⟨hc, hget, hitem, hchain, hnodup, hlt⟩ := hwf
  have hfuel : pre.length + 1 ≤ t.values.heap.length + 1 := by
    have := tableWF_length_le ⟨hc, hget, hitem, hchain, hnodup, hlt⟩
    simp only [List.length_append, List.length_cons] at this
    omega
  have hfst : (table_lookup t key).1 = e.value := by
    simp only [table_lookup, dlist_first]
    exact lookupLoop_fst_found t.cf key pre e suf t.values as t.values.head hc
      (t.values.heap.length + 1) hget hchain hpre hm hfuel
  rw [hfst, hv]
  simp

/-- Witness for the amended C8 at the one-entry table `t1` and key 1. -/
theorem lookup_nonnull_hit_ne_miss_witness :
    TableWF t1 [1] ([] ++ { key := 1, value := some "a" } :: []) ∧
    (table_lookup t1 1).1 = some "a" ∧ (table_lookup t1 1).1 ≠ none :=
  ⟨t1_wf, lookup_nonnull_hit_ne_miss t1 [1] [] [] { key := 1, value := some "a" } 1 "a"
    t1_wf (by simp) (by decide) rfl⟩

/-- Claim C9: `table_isEmpty` is true exactly when the backing sequence
holds no entries. -/
theorem isEmpty_iff_no_entries {K V : Type} (t : MyTable K V) (as : List Nat)
    (es : List (TableElement K V)) (hwf : TableWF t as es) :
    table_isEmpty t = true ↔ es = [] := by
  obtain ⟨hc, hget, _, hchain, _, _⟩ := hwf
  simp only [table_isEmpty, dlist_isEmpty, getNextPtr, hget]
  cases es with
  | nil =>
    obtain ⟨hnext, _⟩ := chainFrom_inv_nil hchain
    simp [hnext]
  | cons e es' =>
    obtain ⟨a, c, as', hnext, _, _, _, _⟩ := chainFrom_inv_cons hchain
    simp [hnext]

/-- Witness for C9 at the one-entry table `t1`. -/
theorem isEmpty_iff_no_entries_witness :
    TableWF t1 [1] [{ key := 1, value := some "a" }] ∧
    (table_isEmpty t1 = true ↔
      ([{ key := 1, value := some "a" }] : List (TableElement Int String)) = []) :=
  ⟨t1_wf, isEmpty_iff_no_entries t1 [1] [{ key := 1, value := some "a" }] t1_wf⟩

/-- Claim C10: `table_create` zero-initialises the table via `calloc`, so
both destructor callbacks start out unregistered and the backing sequence
is empty; consequently `table_remove` and `table_free` on any well-formed
table whose destructors are still unregistered invoke no destructor at all
(both invocation logs are empty). -/
theorem create_defaults_no_destructors {K V : Type} (cf : K → K → Int) (t : MyTable K V)
    (as : List Nat) (es : List (TableElement K V)) (key : K) (hwf : TableWF t as es)
    (hk : t.keyFree = false) (hv : t.valueFree = false) :
    (table_create (K := K) (V := V) cf).keyFree = false ∧
    (table_create (K := K) (V := V) cf).valueFree = false ∧
    TableWF (table_create (K := K) (V := V) cf) [] [] ∧
    (table_remove t key).2.1 = [] ∧ (table_remove t key).2.2 = [] ∧
    (table_free t).1 = [] ∧ (table_free t).2 = [] := by
  obtain ⟨hc, hget, hitem, hchain, hnodup, hlt⟩ := hwf
  have hfuel : es.length + 1 ≤ t.values.heap.length + 1 := by
    have := tableWF_length_le ⟨hc, hget, hitem, hchain, hnodup, hlt⟩
    omega
  obtain ⟨l', as', pc', heq, _⟩ := removeLoop_spec t.cf t.keyFree t.valueFree key es
    t.values as t.values.head hc (t.values.heap.length + 1) hget hchain hnodup hfuel
  have hfree := freeLoop_spec t.keyFree t.valueFree es t.values as t.values.head hc
    (t.values.heap.length + 1) hget hchain hnodup hfuel
  refine ⟨rfl, rfl, ?_, ?_, ?_, ?_, ?_⟩
  · exact ⟨{ item := none, next := none }, rfl, rfl, ChainFrom.nil, by simp,
      by simp [table_create, dlist_empty]⟩
  · simp only [table_remove, dlist_first]
    rw [heq]
    simp [hk]
  · simp only [table_remove, dlist_first]
    rw [heq]
    simp [hv]
  · simp only [table_free, dlist_first]
    rw [hfree]
    simp [hk]
  · simp only [table_free, dlist_first]
    rw [hfree]
    simp [hv]

/-- Witness for C10 at the one-entry table `t1` and key 1. -/
theorem create_defaults_no_destructors_witness :
    TableWF t1 [1] [{ key := 1, value := some "a" }] ∧ t1.keyFree = false ∧
    (table_remove t1 1).2.1 = [] ∧ (table_free t1).1 = [] := by
  have h := create_defaults_no_destructors intCmp t1 [1] [{ key := 1, value := some "a" }] 1
    t1_wf rfl rfl
  exact ⟨t1_wf, rfl, h.2.2.2.1, h.2.2.2.2.2.1⟩
